import Mathlib

/-!
Verification development for the AI Voice Studio audio pipeline.

The renderer source (preload.js and the unnamed variant files) is embedded
shallowly: JS strings become `List Char`, the stateful narration run becomes an
explicit result record, and every fallible platform call becomes an explicit
`Except` or oracle parameter.  Character-level platform behaviour (String.trim,
String.lastIndexOf, RegExp word-boundary replacement with the g and i flags) is
modelled for the ASCII fragment that the application exercises.
-/

deriving instance DecidableEq for Except

namespace AIVoiceStudio

/-- Whitespace as JS `String.prototype.trim` treats it, restricted to the ASCII
white-space characters (space, tab, line feed, carriage return, vertical tab,
form feed). -/
def jsIsWhitespace (c : Char) : Bool :=
  c = ' ' || c = '\t' || c = '\n' || c = '\r' || c = '\x0b' || c = '\x0c'

/-- Word characters of the JS regex class `\w`: ASCII letters (codes 65-90 and
97-122), digits (48-57) and underscore (95). -/
def isWordChar (c : Char) : Bool :=
  decide ((65 ≤ c.toNat ∧ c.toNat ≤ 90) ∨ (97 ≤ c.toNat ∧ c.toNat ≤ 122) ∨
    (48 ≤ c.toNat ∧ c.toNat ≤ 57) ∨ c.toNat = 95)

/-- ASCII lower-casing, as JS case-insensitive matching canonicalises ASCII
letters. -/
def asciiLower (c : Char) : Char :=
  if 65 ≤ c.toNat ∧ c.toNat ≤ 90 then Char.ofNat (c.toNat + 32) else c

/-- Case-insensitive character comparison used by the `i` regex flag (ASCII
fragment). -/
def ciEq (a b : Char) : Bool :=
  asciiLower a = asciiLower b

/-- JS `String.prototype.trim`: drop whitespace from both ends. -/
def jsTrim (t : List Char) : List Char :=
  (((t.dropWhile jsIsWhitespace).reverse.dropWhile jsIsWhitespace)).reverse

/-- JS `text.lastIndexOf(ch, fromIndex)` for a single-character needle: the
largest index `i ≤ fromIndex` with `text[i] = ch`, or `-1` when there is none.
(The call sites only use `fromIndex < text.length`.) -/
def jsLastIndexOf (t : List Char) (ch : Char) (fromIdx : Nat) : Int :=
  match ((List.range (min (fromIdx + 1) t.length)).filter
      (fun i => t.get? i = some ch)).getLast? with
  | some i => (i : Int)
  | none => -1

/-- The `endPos` computation of one iteration of `splitTextIntoChunks`
(preload.js lines 118-125): clamp the window edge to the text end; if the edge
falls short of the end, back off to the later of the last space and the last
newline at or before the edge, provided that point lies strictly after
`currentPos`. -/
def nextCut (text : List Char) (maxChars currentPos : Nat) : Nat :=
  if min (currentPos + maxChars) text.length < text.length then
    if (currentPos : Int) <
        max (jsLastIndexOf text ' ' (min (currentPos + maxChars) text.length))
          (jsLastIndexOf text '\n' (min (currentPos + maxChars) text.length)) then
      (max (jsLastIndexOf text ' ' (min (currentPos + maxChars) text.length))
        (jsLastIndexOf text '\n' (min (currentPos + maxChars) text.length))).toNat
    else min (currentPos + maxChars) text.length
  else min (currentPos + maxChars) text.length

/-- Loop body of `splitTextIntoChunks` (preload.js lines 115-128), written with
explicit fuel; each iteration advances `currentPos` by at least one when
`1 ≤ maxChars`, so fuel `text.length` reproduces the JS `while` loop exactly. -/
def chunkLoop (text : List Char) (maxChars : Nat) : Nat → Nat → List (List Char)
  | 0, _ => []
  | fuel + 1, currentPos =>
    if currentPos < text.length then
      jsTrim ((text.drop currentPos).take (nextCut text maxChars currentPos - currentPos)) ::
        chunkLoop text maxChars fuel (nextCut text maxChars currentPos)
    else []

/-- `splitTextIntoChunks(text, maxChars)` from preload.js lines 113-130: short
texts pass through whole; longer texts are cut at the last space or newline at
or before the window edge (hard cut when that point is not past `currentPos`),
each piece trimmed, empty pieces dropped. -/
def splitTextIntoChunks (text : List Char) (maxChars : Nat) : List (List Char) :=
  if text.length ≤ maxChars then [text]
  else (chunkLoop text maxChars text.length 0).filter (fun c => 0 < c.length)

/-- A pronunciation rule as edited in PronunciationModal: `{word, alias}`. -/
structure PronunciationRule where
  word : List Char
  «alias» : List Char
deriving Repr, DecidableEq

/-- JS replacement-pattern expansion performed by `String.prototype.replace`
on the replacement string: `$$` yields a literal dollar, `$&` inserts the
matched text, any other character is literal.  (With no capture groups in the
pattern, `$1`..`$9` stay literal, which the catch-all case reproduces; the rare
context insertions are not used by any theorem below.) -/
def expandAlias : List Char → List Char → List Char
  | [], _ => []
  | c :: rest, m =>
    if c = '$' then
      match rest with
      | [] => ['$']
      | d :: rest2 =>
        if d = '$' then '$' :: expandAlias rest2 m
        else if d = '&' then m ++ expandAlias rest2 m
        else '$' :: expandAlias (d :: rest2) m
    else c :: expandAlias rest m

/-- Case-insensitive list equality (the `i` flag on a fixed-word pattern). -/
def ciListEq : List Char → List Char → Bool
  | [], [] => true
  | a :: as, b :: bs => ciEq a b && ciListEq as bs
  | _, _ => false

/-- Case-insensitive "the first argument is matched by the start of the second
argument" test. -/
def isPrefixCI : List Char → List Char → Bool
  | [], _ => true
  | _ :: _, [] => false
  | w :: ws, c :: cs => ciEq c w && isPrefixCI ws cs

/-- The `\b` assertion before a non-empty word: satisfied at the subject start
and after any non-word character. -/
def leftBoundary : Option Char → Bool
  | none => true
  | some p => !isWordChar p

/-- The `\b` assertion after a non-empty word: satisfied at the subject end
and before any non-word character. -/
def rightBoundary : List Char → Bool
  | [] => true
  | c :: _ => !isWordChar c

/-- Does the regex `\b word \b` (with flags `gi`) match at the start of `t`,
where `prev` is the character immediately before `t` in the whole subject
string (`none` at the start of the subject)? -/
def wholeMatchAt (w : Char) (ws : List Char) (prev : Option Char) (t : List Char) : Bool :=
  isPrefixCI (w :: ws) t && leftBoundary prev && rightBoundary (t.drop (ws.length + 1))

/-- Global left-to-right scan of `text.replace(/\b word \b/gi, alias)` for a
non-empty word: at each position, if the whole-word pattern matches, emit the
expanded replacement and resume after the matched text (JS `lastIndex`
semantics); otherwise emit the character and advance by one. -/
def replaceLoop (w : Char) (ws alias_ : List Char) :
    Nat → Option Char → List Char → List Char
  | 0, _, _ => []
  | _ + 1, _, [] => []
  | fuel + 1, prev, c :: rest =>
    if wholeMatchAt w ws prev (c :: rest) then
      expandAlias alias_ ((c :: rest).take (ws.length + 1)) ++
        replaceLoop w ws alias_ fuel ((c :: rest).take (ws.length + 1)).getLast?
          (rest.drop ws.length)
    else
      c :: replaceLoop w ws alias_ fuel (some c) rest

/-- Is there a `\b` boundary between two adjacent characters (`none` marks the
subject edge)?  JS: exactly one side is a word character. -/
def boundaryBetween (prev next : Option Char) : Bool :=
  (match prev with | none => false | some c => isWordChar c)
    != (match next with | none => false | some c => isWordChar c)

/-- The empty rule word gives the pattern `/\b\b/gi`, which matches the empty
string at every word boundary; global replacement inserts the replacement at
each boundary and advances one character past an empty match. -/
def emptyPatternLoop (aliasE : List Char) : Option Char → List Char → List Char
  | prev, [] => if boundaryBetween prev none then aliasE else []
  | prev, c :: rest =>
    (if boundaryBetween prev (some c) then aliasE else []) ++
      c :: emptyPatternLoop aliasE (some c) rest

/-- `text.replace(new RegExp("\\b" + word + "\\b", "gi"), alias)` for a rule
word made of word characters (for such words the interpolated pattern is the
literal word between two `\b` assertions). -/
def replaceWholeWordCI (text word alias_ : List Char) : List Char :=
  match word with
  | [] => emptyPatternLoop (expandAlias alias_ []) none text
  | w :: ws => replaceLoop w ws alias_ text.length none text

/-- Pattern text the source builds for a rule: `\b` + word + `\b`
(preload.js line 525 and part_000 line 213). -/
def patternOf (word : List Char) : List Char :=
  '\\' :: 'b' :: (word ++ ['\\', 'b'])

/-- Modelled platform behaviour of `new RegExp(pattern, "gi")`: ECMA-262
rejects a pattern whose groups are unbalanced or whose character class or
escape is unterminated, raising a SyntaxError.  This scanner checks exactly
those well-formedness conditions (depth of open groups, inside-class flag);
other invalid patterns are outside the scope of the theorems below. -/
def groupScan : List Char → Nat → Bool → Bool
  | [], depth, inClass => depth == 0 && !inClass
  | c :: rest, depth, inClass =>
    if c = '\\' then
      match rest with
      | [] => false
      | _ :: rest2 => groupScan rest2 depth inClass
    else if inClass then
      if c = ']' then groupScan rest depth false else groupScan rest depth true
    else if c = '[' then groupScan rest depth true
    else if c = '(' then groupScan rest (depth + 1) false
    else if c = ')' then
      match depth with
      | 0 => false
      | d + 1 => groupScan rest d false
    else groupScan rest depth false

/-- A pattern compiles iff its groups, classes and escapes are well formed. -/
def jsRegExpCompiles (p : List Char) : Bool :=
  groupScan p 0 false

/-- One step of the `pronunciationRules.forEach` body (preload.js line 525):
build the regex from the rule word and replace globally; constructing the
regex throws for a word that yields an invalid pattern. -/
def applyRule (text : List Char) (r : PronunciationRule) : Except Unit (List Char) :=
  if jsRegExpCompiles (patternOf r.word) then
    Except.ok (replaceWholeWordCI text r.word r.«alias»)
  else
    Except.error ()

/-- Sequential application of the ordered rule list: each rule scans the
already-rewritten output of the previous rule; a thrown SyntaxError aborts
the remaining rules (it propagates out of the forEach). -/
def applyRules (text : List Char) : List PronunciationRule → Except Unit (List Char)
  | [] => Except.ok text
  | r :: rs =>
    match applyRule text r with
    | Except.ok t => applyRules t rs
    | Except.error e => Except.error e

/-- Rewriting as the specification words it (section 4.1): the text decomposes
into maximal word-character runs and separators; every run that equals the
rule word case-insensitively (exactly the case-insensitive whole-word matches,
for a word made of word characters) is replaced by the alias, taken literally.
The flag tracks whether a word boundary precedes the current position. -/
def specRewriteAux (word alias_ : List Char) : Nat → Bool → List Char → List Char
  | 0, _, _ => []
  | _ + 1, _, [] => []
  | fuel + 1, b, c :: rest =>
    if isWordChar c then
      (if b && ciListEq (c :: rest.takeWhile isWordChar) word then alias_
       else c :: rest.takeWhile isWordChar) ++
        specRewriteAux word alias_ fuel true (rest.dropWhile isWordChar)
    else
      c :: specRewriteAux word alias_ fuel true rest

/-- Specification-level whole-word replacement (literal alias, boundary at the
start of the subject). -/
def specRewrite (text word alias_ : List Char) : List Char :=
  specRewriteAux word alias_ text.length true text

/-- Extraction of the Gemini inline audio payload in preload.js lines 587-593:
take the first part whose `inlineData.data` is truthy (non-empty) and stop. -/
def extractFirstInline : List (Option String) → Option String
  | [] => none
  | some d :: rest => if d.isEmpty then extractFirstInline rest else some d
  | none :: rest => extractFirstInline rest

/-- Extraction in part_000 lines 224-227: the loop has no break, so the
variable ends up holding the last truthy inline payload. -/
def extractLastInline (parts : List (Option String)) : Option String :=
  parts.foldl
    (fun acc p =>
      match p with
      | some d => if d.isEmpty then acc else some d
      | none => acc)
    none

/-- All truthy inline audio payloads of a response, in part order. -/
def inlinePayloads (parts : List (Option String)) : List String :=
  parts.filterMap
    (fun p =>
      match p with
      | some d => if d.isEmpty then none else some d
      | none => none)

/-- The literal `<speak>` opening tag. -/
def speakOpen : List Char := "<speak>".toList

/-- The literal `</speak>` closing tag. -/
def speakClose : List Char := "</speak>".toList

/-- JS `haystack.includes(needle)`: some suffix of the haystack starts with
the needle. -/
def listContains (needle : List Char) : List Char → Bool
  | [] => needle.isEmpty
  | c :: rest => needle.isPrefixOf (c :: rest) || listContains needle rest

/-- `ruleAppliedText.includes("<speak>")` (preload.js line 527): substring
containment, not a wrapped-document check. -/
def containsSpeak (t : List Char) : Bool :=
  listContains speakOpen t

/-- Per-chunk re-wrapping (preload.js lines 545-548): prepend `<speak>` unless
the chunk already starts with it, then append `</speak>` unless the result
already ends with it. -/
def wrapSpeak (c : List Char) : List Char :=
  let c1 := if speakOpen.isPrefixOf c then c else speakOpen ++ c
  if speakClose.isSuffixOf c1 then c1 else c1 ++ speakClose

/-- Translation pre-pass (preload.js lines 529-536): when the target language
differs from the authored default the whole rule-substituted script goes to
the translation call once; `transResponse.text || ruleAppliedText` falls back
to the untranslated text only when the returned text is falsy (absent or
empty), while a rejected call propagates as an error. -/
def translationStage (needsTranslate : Bool)
    (translate : Except String (Option (List Char))) (t : List Char) :
    Except String (List Char) :=
  if needsTranslate then
    match translate with
    | Except.error e => Except.error e
    | Except.ok none => Except.ok t
    | Except.ok (some tr) => Except.ok (if tr.isEmpty then t else tr)
  else Except.ok t

/-- Per-chunk synthesis loop of `generateNarration` (preload.js lines
541-598).  `step i text` is the provider branch body for chunk `i`:
`.error m` models a thrown failure, `.ok (some a)` a pushed audio part, and
`.ok none` the Gemini branch completing without pushing anything.  Returns the
dispatched `(index, text)` pairs and either the accumulated audio parts or the
wrapped failure message thrown by the per-chunk catch. -/
def synthLoop (step : Nat → List Char → Except String (Option String)) :
    Nat → List (List Char) → List (Nat × List Char) × Except String (List String)
  | _, [] => ([], Except.ok [])
  | i, c :: rest =>
    match step i c with
    | Except.error m =>
      ([(i, c)], Except.error ("Sequence " ++ Nat.repr (i + 1) ++ " Failed: " ++ m))
    | Except.ok out =>
      let res := synthLoop step (i + 1) rest
      ((i, c) :: res.1,
        match res.2 with
        | Except.error m => Except.error m
        | Except.ok parts =>
          Except.ok (match out with | some a => a :: parts | none => parts))

/-- Outcome of one narration production run: the surfaced error (if any), the
master artifact (the ordered audio parts handed to `concatenateBuffers`, absent
when no `setAudioUrl` with audio happened), the dispatched chunks, and the text
that was handed to the chunker. -/
structure GenResult where
  error : Option String
  audioUrl : Option (List String)
  sent : List (Nat × List Char)
  chunkedText : Option (List Char)
deriving Repr, DecidableEq

/-- `generateNarration` (preload.js lines 520-604): `setAudioUrl(null)` first;
apply the pronunciation rules sequentially; record whether the rule-applied
text contains `<speak>`; run the optional translation pre-pass; chunk; then
synthesize chunk by chunk (each chunk re-wrapped when the ssml flag is set),
aborting the run on the first failure; on success the concatenated parts
become the master artifact.  A thrown error anywhere lands in the outer catch
as the surfaced error with the artifact still null. -/
def generateNarration (narrationText : List Char) (rules : List PronunciationRule)
    (needsTranslate : Bool) (translate : Except String (Option (List Char)))
    (step : Nat → List Char → Except String (Option String)) (maxChars : Nat) :
    GenResult :=
  match applyRules narrationText rules with
  | Except.error _ =>
    { error := some "SyntaxError: Invalid regular expression"
      audioUrl := none, sent := [], chunkedText := none }
  | Except.ok ruleAppliedText =>
    let isSsml := containsSpeak ruleAppliedText
    match translationStage needsTranslate translate ruleAppliedText with
    | Except.error m =>
      { error := some m, audioUrl := none, sent := [], chunkedText := none }
    | Except.ok textToChunk =>
      let chunks := splitTextIntoChunks textToChunk maxChars
      let wrapped := chunks.map (fun c => if isSsml then wrapSpeak c else c)
      let r := synthLoop step 0 wrapped
      match r.2 with
      | Except.error m =>
        { error := some m, audioUrl := none, sent := r.1, chunkedText := some textToChunk }
      | Except.ok parts =>
        { error := none, audioUrl := some parts, sent := r.1, chunkedText := some textToChunk }

/-- The Gemini provider branch body (preload.js lines 569-594) as a `synthLoop`
step: the `generateContent` response for chunk `i` is either a rejection or a
list of parts, from which the first truthy inline payload is taken; when none
is present nothing is pushed and no error is raised. -/
def geminiStep (responses : Nat → Except String (List (Option String)))
    (i : Nat) (_text : List Char) : Except String (Option String) :=
  match responses i with
  | Except.error m => Except.error m
  | Except.ok parts => Except.ok (extractFirstInline parts)

/-- Outcome of the single-shot narration run of the part_000 variant. -/
structure Gen000Result where
  error : Option String
  audioUrl : Option String
deriving Repr, DecidableEq

/-- `generateNarration` of the part_000 variant (lines 198-238): apply the
rules, one `generateContent` call for the whole text, keep the last truthy
inline payload, and throw `No audio returned` when there is none. -/
def generateNarration000 (narrationText : List Char) (rules : List PronunciationRule)
    (response : Except String (List (Option String))) : Gen000Result :=
  match applyRules narrationText rules with
  | Except.error _ =>
    { error := some "SyntaxError: Invalid regular expression", audioUrl := none }
  | Except.ok _ =>
    match response with
    | Except.error m => { error := some m, audioUrl := none }
    | Except.ok parts =>
      match extractLastInline parts with
      | none => { error := some "No audio returned", audioUrl := none }
      | some b64 => { error := none, audioUrl := some b64 }

/-- `startAt = max(outputClockNow, cursor)` (preload.js line 505). -/
def scheduleStart (now cursor : ℚ) : ℚ :=
  max now cursor

/-- The cursor after scheduling one buffer:
`nextStartTime = startAt + buffer.duration` (preload.js line 507). -/
def scheduleNext (now cursor dur : ℚ) : ℚ :=
  scheduleStart now cursor + dur

/-- Start times assigned to a sequence of inbound buffers processed in arrival
order, each given as `(outputClockNow at arrival, duration)`. -/
def runScheduler (cursor : ℚ) : List (ℚ × ℚ) → List ℚ
  | [] => []
  | (now, dur) :: rest =>
    scheduleStart now cursor :: runScheduler (scheduleNext now cursor dur) rest

/-- The cursor value after a sequence of inbound buffers has been scheduled. -/
def cursorAfter (cursor : ℚ) : List (ℚ × ℚ) → ℚ
  | [] => cursor
  | (now, dur) :: rest => cursorAfter (scheduleNext now cursor dur) rest

/-- The mutable duplex-session environment of the App component: the refs that
`startSession`, the message handler and `stopSession` touch.  `sources` holds
identifiers of the scheduled-but-unfinished playback sources; `cursor` is
`nextStartTimeRef`. -/
structure SessionState where
  session : Bool
  stream : Bool
  processorConnected : Bool
  inputCtxOpen : Bool
  outputCtxOpen : Bool
  sources : List Nat
  cursor : ℚ
  isSessionActive : Bool
  inputTranscription : List Char
  outputTranscription : List Char
  transcriptFinal : Bool
deriving Repr, DecidableEq

/-- `stopSession` (preload.js lines 420-430): five guarded teardown steps
(close channel, stop microphone tracks, disconnect the processor, close the
input context, stop and discard the scheduled sources and close the output
context), then unconditionally clear the activity flag, both transcription
accumulators, and mark the transcript final.  `nextStartTimeRef` is not
touched. -/
def stopSession (s : SessionState) : SessionState :=
  let s1 := if s.session then { s with session := false } else s
  let s2 := if s1.stream then { s1 with stream := false } else s1
  let s3 := if s2.processorConnected then { s2 with processorConnected := false } else s2
  let s4 := if s3.inputCtxOpen then { s3 with inputCtxOpen := false } else s3
  let s5 := if s4.outputCtxOpen then { s4 with sources := [], outputCtxOpen := false } else s4
  { s5 with
    isSessionActive := false
    inputTranscription := []
    outputTranscription := []
    transcriptFinal := true }

/-- The resource initialisation at the top of `startSession` (preload.js lines
433 and 441-443): mark the session active, open the 16 kHz input and 24 kHz
output contexts, and set `nextStartTimeRef.current = 0`. -/
def startSessionInit (s : SessionState) : SessionState :=
  { s with
    isSessionActive := true
    inputCtxOpen := true
    outputCtxOpen := true
    cursor := 0 }

/-! ## Playback scheduler (claim C3) -/

/-- C3: each inbound decoded buffer starts at `max(outputClockNow, cursor)` and
advances the cursor to `startAt + duration`; hence a later buffer never starts
before the previous buffer's declared end, the cursor never decreases while
buffer durations are non-negative, and three timely buffers of durations
`d1, d2, d3` are scheduled back to back at `t1, t1 + d1, t1 + d1 + d2`. -/
theorem playback_scheduler_contract :
    (∀ now cursor dur : ℚ, scheduleStart now cursor = max now cursor ∧
      scheduleNext now cursor dur = scheduleStart now cursor + dur) ∧
    (∀ cursor now1 d1 now2 : ℚ,
      scheduleStart now1 cursor + d1 ≤ scheduleStart now2 (scheduleNext now1 cursor d1)) ∧
    (∀ (cursor : ℚ) (arr : List (ℚ × ℚ)), (∀ p ∈ arr, 0 ≤ p.2) →
      cursor ≤ cursorAfter cursor arr) ∧
    (∀ t1 t2 t3 d1 d2 d3 : ℚ, 0 ≤ t1 → t1 < t2 → t2 < t3 →
      t2 < t1 + d1 → t3 < t1 + d1 + d2 →
      runScheduler 0 [(t1, d1), (t2, d2), (t3, d3)] = [t1, t1 + d1, t1 + d1 + d2]) := by
  refine ⟨fun now cursor dur => ⟨rfl, rfl⟩, fun cursor now1 d1 now2 => ?_, ?_, ?_⟩
  · exact le_trans (le_refl _) (le_max_right now2 (scheduleNext now1 cursor d1))
  · intro cursor arr
    induction arr generalizing cursor with
    | nil => intro _; exact le_refl cursor
    | cons p rest ih =>
      intro h
      have hd : 0 ≤ p.2 := h p (List.mem_cons_self p rest)
      have step : cursor ≤ scheduleNext p.1 cursor p.2 := by
        have : cursor ≤ max p.1 cursor := le_max_right p.1 cursor
        calc cursor ≤ max p.1 cursor := this
          _ ≤ max p.1 cursor + p.2 := le_add_of_nonneg_right hd
          _ = scheduleNext p.1 cursor p.2 := rfl
      have tail := ih (scheduleNext p.1 cursor p.2) (fun q hq => h q (List.mem_cons_of_mem p hq))
      calc cursor ≤ scheduleNext p.1 cursor p.2 := step
        _ ≤ cursorAfter (scheduleNext p.1 cursor p.2) rest := tail
        _ = cursorAfter cursor (p :: rest) := rfl
  · intro t1 t2 t3 d1 d2 d3 h1 _h12 _h23 h2 h3
    have e1 : scheduleStart t1 0 = t1 := max_eq_left h1
    have e2 : scheduleStart t2 (t1 + d1) = t1 + d1 := max_eq_right (le_of_lt h2)
    have e3 : scheduleStart t3 (t1 + d1 + d2) = t1 + d1 + d2 := max_eq_right (le_of_lt h3)
    simp only [runScheduler, scheduleNext, e1, e2, e3]

/-- Witness: three concrete buffers with timely arrivals are scheduled back to
back from a fresh cursor. -/
theorem playback_scheduler_contract_witness :
    runScheduler 0 [((0 : ℚ), (2 : ℚ)), (1, 2), (2, 1)] = [0, 2, 4] := by
  have h := playback_scheduler_contract.2.2.2 0 1 2 2 2 1
    (by norm_num) (by norm_num) (by norm_num) (by norm_num) (by norm_num)
  norm_num at h
  exact h

/-! ## Duplex-session teardown (claim C9) -/

/-- The five guarded teardown steps of `stopSession` amount to clearing every
resource unconditionally, except that the scheduled sources survive when the
output context was already gone, and the playback cursor is never touched. -/
theorem stopSession_eq (s : SessionState) :
    stopSession s =
      { session := false, stream := false, processorConnected := false,
        inputCtxOpen := false, outputCtxOpen := false,
        sources := if s.outputCtxOpen then [] else s.sources,
        cursor := s.cursor, isSessionActive := false,
        inputTranscription := [], outputTranscription := [],
        transcriptFinal := true } := by
  unfold stopSession
  by_cases h1 : s.session <;> by_cases h2 : s.stream <;>
    by_cases h3 : s.processorConnected <;> by_cases h4 : s.inputCtxOpen <;>
    by_cases h5 : s.outputCtxOpen <;> simp [h1, h2, h3, h4, h5]

/-- C9 counterexample: `stopSession` does not reset the playback cursor.  From
a live session whose cursor sits at 5, teardown leaves the cursor at 5, not at
its initial value 0. -/
theorem stopSession_does_not_reset_cursor :
    (stopSession ⟨true, true, true, true, true, [1], 5, true, [], [], false⟩).cursor = 5 ∧
    ¬ (stopSession ⟨true, true, true, true, true, [1], 5, true, [], [], false⟩).cursor = 0 := by
  constructor <;> decide

/-- C9 (amended): teardown from any reachable state (scheduled sources only
exist while the output context is open) releases the channel, microphone,
processor, both contexts and all scheduled sources, clears the activity flag,
finalises the transcript, and is idempotent; the playback cursor is left
unchanged by `stopSession` and is reset to 0 by the next `startSession`. -/
theorem stopSession_cleanup (s : SessionState)
    (hs : s.sources = [] ∨ s.outputCtxOpen = true) :
    (stopSession s).session = false ∧
    (stopSession s).stream = false ∧
    (stopSession s).processorConnected = false ∧
    (stopSession s).inputCtxOpen = false ∧
    (stopSession s).outputCtxOpen = false ∧
    (stopSession s).sources = [] ∧
    (stopSession s).isSessionActive = false ∧
    (stopSession s).transcriptFinal = true ∧
    (stopSession s).cursor = s.cursor ∧
    stopSession (stopSession s) = stopSession s ∧
    (startSessionInit (stopSession s)).cursor = 0 := by
  rcases hs with hs | hs <;>
    simp [stopSession_eq, startSessionInit, hs]

/-- Witness: teardown of an already-closed session is a no-op that keeps the
cursor, and a fresh start resets the cursor. -/
theorem stopSession_cleanup_witness :
    stopSession (stopSession ⟨false, false, false, false, false, [], 3, false, [], [], false⟩) =
      stopSession ⟨false, false, false, false, false, [], 3, false, [], [], false⟩ ∧
    (stopSession ⟨false, false, false, false, false, [], 3, false, [], [], false⟩).cursor = 3 := by
  have h := stopSession_cleanup
    ⟨false, false, false, false, false, [], 3, false, [], [], false⟩ (Or.inl rfl)
  exact ⟨h.2.2.2.2.2.2.2.2.2.1, h.2.2.2.2.2.2.2.2.1⟩

/-! ## Narration run plumbing shared by the orchestrator claims -/

/-- Unfolding of `generateNarration` once rule application and the translation
stage have produced their texts. -/
theorem generateNarration_run (narrationText : List Char) (rules : List PronunciationRule)
    (needsTranslate : Bool) (translate : Except String (Option (List Char)))
    (step : Nat → List Char → Except String (Option String)) (maxChars : Nat)
    (ruleText trText : List Char)
    (hr : applyRules narrationText rules = Except.ok ruleText)
    (ht : translationStage needsTranslate translate ruleText = Except.ok trText) :
    generateNarration narrationText rules needsTranslate translate step maxChars =
      (match (synthLoop step 0 ((splitTextIntoChunks trText maxChars).map
          (fun c => if containsSpeak ruleText then wrapSpeak c else c))).2 with
      | Except.error m =>
        { error := some m, audioUrl := none,
          sent := (synthLoop step 0 ((splitTextIntoChunks trText maxChars).map
            (fun c => if containsSpeak ruleText then wrapSpeak c else c))).1,
          chunkedText := some trText }
      | Except.ok parts =>
        { error := none, audioUrl := some parts,
          sent := (synthLoop step 0 ((splitTextIntoChunks trText maxChars).map
            (fun c => if containsSpeak ruleText then wrapSpeak c else c))).1,
          chunkedText := some trText }) := by
  simp only [generateNarration, hr, ht]

/-- Every pair recorded as dispatched by the synthesis loop is an indexed
element of the chunk list. -/
theorem synthLoop_sent_mem (step : Nat → List Char → Except String (Option String)) :
    ∀ (cs : List (List Char)) (i : Nat) (p : Nat × List Char),
      p ∈ (synthLoop step i cs).1 → p ∈ cs.enumFrom i := by
  intro cs
  induction cs with
  | nil => intro i p hp; simp [synthLoop] at hp
  | cons c rest ih =>
    intro i p hp
    rw [synthLoop] at hp
    cases hstep : step i c with
    | error m =>
      rw [hstep] at hp
      simp at hp
      simp [List.enumFrom, hp]
    | ok out =>
      rw [hstep] at hp
      simp at hp
      rcases hp with hp | hp
      · simp [List.enumFrom, hp]
      · exact List.mem_cons_of_mem _ (ih (i + 1) p hp)

/-- The second component of an indexed element is an element. -/
theorem snd_mem_of_mem_enumFrom {α : Type} :
    ∀ (l : List α) (i : Nat) (p : Nat × α), p ∈ l.enumFrom i → p.2 ∈ l := by
  intro l
  induction l with
  | nil => intro i p hp; simp [List.enumFrom] at hp
  | cons c rest ih =>
    intro i p hp
    simp [List.enumFrom] at hp
    rcases hp with hp | hp
    · simp [hp]
    · exact List.mem_cons_of_mem _ (ih (i + 1) p hp)

/-! ## Markup re-wrapping (claim C10) -/

/-- A re-wrapped chunk always starts with the opening tag. -/
theorem wrapSpeak_startsWith (c : List Char) :
    speakOpen.isPrefixOf (wrapSpeak c) = true := by
  unfold wrapSpeak
  simp only [List.isPrefixOf_iff_prefix]
  split
  · next h =>
    split
    · exact h
    · exact h.trans (List.prefix_append _ _)
  · split
    · exact List.prefix_append _ _
    · exact (List.prefix_append speakOpen c).trans (List.prefix_append _ _)

/-- A re-wrapped chunk always ends with the closing tag. -/
theorem wrapSpeak_endsWith (c : List Char) :
    speakClose.isSuffixOf (wrapSpeak c) = true := by
  unfold wrapSpeak
  simp only [List.isSuffixOf_iff_suffix]
  split
  · split
    · next h => exact h
    · exact List.suffix_append _ _
  · split
    · next h => exact h
    · exact List.suffix_append _ _

/-- C10: the re-wrap trigger is substring containment of `<speak>` in the
rule-substituted text; when it holds every dispatched chunk text starts with
`<speak>` and ends with `</speak>`, and when it does not hold every dispatched
chunk text is one of the raw chunker outputs, unmodified. -/
theorem markup_rewrap_by_containment
    (narrationText : List Char) (rules : List PronunciationRule)
    (needsTranslate : Bool) (translate : Except String (Option (List Char)))
    (step : Nat → List Char → Except String (Option String)) (maxChars : Nat)
    (ruleText trText : List Char)
    (hr : applyRules narrationText rules = Except.ok ruleText)
    (ht : translationStage needsTranslate translate ruleText = Except.ok trText) :
    (containsSpeak ruleText = true →
      ∀ p ∈ (generateNarration narrationText rules needsTranslate translate step maxChars).sent,
        speakOpen.isPrefixOf p.2 = true ∧ speakClose.isSuffixOf p.2 = true) ∧
    (containsSpeak ruleText = false →
      ∀ p ∈ (generateNarration narrationText rules needsTranslate translate step maxChars).sent,
        p.2 ∈ splitTextIntoChunks trText maxChars) := by
  have hsent : (generateNarration narrationText rules needsTranslate translate step maxChars).sent =
      (synthLoop step 0 ((splitTextIntoChunks trText maxChars).map
        (fun c => if containsSpeak ruleText then wrapSpeak c else c))).1 := by
    rw [generateNarration_run narrationText rules needsTranslate translate step maxChars
      ruleText trText hr ht]
    split <;> rfl
  constructor
  · intro hcon p hp
    rw [hsent] at hp
    have hmem := synthLoop_sent_mem step _ 0 p hp
    have hmem2 := snd_mem_of_mem_enumFrom _ 0 p hmem
    simp only [hcon, if_true] at hmem2
    rcases List.mem_map.mp hmem2 with ⟨c, _, hc⟩
    rw [← hc]
    exact ⟨wrapSpeak_startsWith c, wrapSpeak_endsWith c⟩
  · intro hcon p hp
    rw [hsent] at hp
    have hmem := synthLoop_sent_mem step _ 0 p hp
    have hmem2 := snd_mem_of_mem_enumFrom _ 0 p hmem
    simpa [hcon] using hmem2

/-- Witness: a script that merely contains `<speak>` mid-text (it neither
starts nor ends wrapped) has its single dispatched chunk re-wrapped on both
sides. -/
theorem markup_rewrap_by_containment_witness :
    speakOpen.isPrefixOf (wrapSpeak "ab <speak>cd".toList) = true ∧
    speakClose.isSuffixOf (wrapSpeak "ab <speak>cd".toList) = true := by
  have h := (markup_rewrap_by_containment "ab <speak>cd".toList [] false (Except.ok none)
    (fun _ _ => Except.ok (some "A")) 3000 "ab <speak>cd".toList "ab <speak>cd".toList
    rfl rfl).1 (by decide)
  exact h (0, wrapSpeak "ab <speak>cd".toList) (by decide)

/-! ## Fail-fast chunk failure (claim C4) -/

/-- When every chunk before the failing one succeeds and the failing chunk's
step throws `m`, the loop dispatches exactly the chunks up to and including
the failing one and propagates the wrapped message naming the 1-based index. -/
theorem synthLoop_fail (step : Nat → List Char → Except String (Option String)) :
    ∀ (pre : List (List Char)) (c : List Char) (post : List (List Char)) (s : Nat) (m : String),
      (∀ q ∈ pre.enumFrom s, ∃ a, step q.1 q.2 = Except.ok a) →
      step (s + pre.length) c = Except.error m →
      synthLoop step s (pre ++ c :: post) =
        (pre.enumFrom s ++ [(s + pre.length, c)],
         Except.error ("Sequence " ++ Nat.repr (s + pre.length + 1) ++ " Failed: " ++ m)) := by
  intro pre
  induction pre with
  | nil =>
    intro c post s m _ hfail
    simp only [List.length_nil, Nat.add_zero] at hfail
    rw [List.nil_append, synthLoop, hfail]
    simp [List.enumFrom]
  | cons p pre ih =>
    intro c post s m hok hfail
    obtain ⟨a, ha⟩ := hok (s, p) (by simp [List.enumFrom])
    rw [List.cons_append, synthLoop, ha]
    have harith : s + 1 + pre.length = s + (p :: pre).length := by
      simp [List.length_cons]; omega
    have ih' := ih c post (s + 1) m
      (fun q hq => hok q (by simp [List.enumFrom]; right; exact hq)) (by rw [harith]; exact hfail)
    rw [ih']
    simp only [List.enumFrom, harith]
    rw [List.cons_append]

/-- C4: a failure while synthesizing a chunk aborts the run at once: chunks
after the failing one are never dispatched, the surfaced error names the
1-based index of the failing chunk, and no master artifact is set. -/
theorem chunk_failure_fail_fast
    (narrationText : List Char) (rules : List PronunciationRule)
    (needsTranslate : Bool) (translate : Except String (Option (List Char)))
    (step : Nat → List Char → Except String (Option String)) (maxChars : Nat)
    (ruleText trText : List Char) (pre : List (List Char)) (c : List Char)
    (post : List (List Char)) (m : String)
    (hr : applyRules narrationText rules = Except.ok ruleText)
    (ht : translationStage needsTranslate translate ruleText = Except.ok trText)
    (hwrap : (splitTextIntoChunks trText maxChars).map
      (fun c => if containsSpeak ruleText then wrapSpeak c else c) = pre ++ c :: post)
    (hok : ∀ q ∈ pre.enumFrom 0, ∃ a, step q.1 q.2 = Except.ok a)
    (hfail : step pre.length c = Except.error m) :
    (generateNarration narrationText rules needsTranslate translate step maxChars).error =
      some ("Sequence " ++ Nat.repr (pre.length + 1) ++ " Failed: " ++ m) ∧
    (generateNarration narrationText rules needsTranslate translate step maxChars).audioUrl =
      none ∧
    (generateNarration narrationText rules needsTranslate translate step maxChars).sent.map
      Prod.fst = List.range (pre.length + 1) := by
  have hloop := synthLoop_fail step pre c post 0 m hok (by simpa using hfail)
  rw [generateNarration_run narrationText rules needsTranslate translate step maxChars
    ruleText trText hr ht, hwrap, hloop]
  refine ⟨by simp, by simp, ?_⟩
  simp only [List.map_append, List.enumFrom_map_fst, List.map_cons, List.map_nil]
  rw [← List.range_eq_range', List.range_succ]
  simp

/-- Witness: four chunks, the second fails; the error names `Sequence 2`, no
artifact is set, and only chunks 1 and 2 were dispatched. -/
theorem chunk_failure_fail_fast_witness :
    (generateNarration "aa bb cc dd".toList [] false (Except.ok none)
      (fun i _ => if i = 1 then Except.error "boom" else Except.ok (some "A")) 3).error =
      some "Sequence 2 Failed: boom" ∧
    (generateNarration "aa bb cc dd".toList [] false (Except.ok none)
      (fun i _ => if i = 1 then Except.error "boom" else Except.ok (some "A")) 3).audioUrl =
      none ∧
    (generateNarration "aa bb cc dd".toList [] false (Except.ok none)
      (fun i _ => if i = 1 then Except.error "boom" else Except.ok (some "A")) 3).sent.map
      Prod.fst = List.range 2 := by
  have h := chunk_failure_fail_fast "aa bb cc dd".toList [] false (Except.ok none)
    (fun i _ => if i = 1 then Except.error "boom" else Except.ok (some "A")) 3
    "aa bb cc dd".toList "aa bb cc dd".toList
    ["aa".toList] "bb".toList ["cc".toList, "dd".toList] "boom"
    rfl rfl (by decide)
    (fun q hq => by
      have hq0 : q = (0, "aa".toList) := by
        simpa [List.enumFrom] using hq
      exact ⟨some "A", by subst hq0; rfl⟩)
    rfl
  simpa using h

/-! ## Inline audio extraction (claim C5) -/

/-- The break-on-first-hit loop of preload.js returns the first truthy
payload. -/
theorem extractFirstInline_eq_head (parts : List (Option String)) :
    extractFirstInline parts = (inlinePayloads parts).head? := by
  induction parts with
  | nil => rfl
  | cons p rest ih =>
    cases p with
    | none => simpa [extractFirstInline, inlinePayloads] using ih
    | some d =>
      by_cases hd : d.isEmpty <;>
        simp [extractFirstInline, inlinePayloads, hd, ih]

/-- The overwrite fold of part_000 keeps the last truthy payload over any
starting accumulator. -/
theorem extract_fold_last (parts : List (Option String)) :
    ∀ acc : Option String,
      parts.foldl
        (fun acc p =>
          match p with
          | some d => if d.isEmpty then acc else some d
          | none => acc) acc =
      (match (inlinePayloads parts).getLast? with
       | some d => some d
       | none => acc) := by
  induction parts with
  | nil => intro acc; rfl
  | cons p rest ih =>
    intro acc
    cases p with
    | none => simpa [inlinePayloads] using ih acc
    | some d =>
      by_cases hd : d.isEmpty
      · simpa [inlinePayloads, hd] using ih acc
      · rw [List.foldl_cons]
        have hred : (match some d with
            | some d => if d.isEmpty then acc else some d
            | none => acc) = some d := by simp [hd]
        rw [hred, ih (some d)]
        have hip : inlinePayloads (some d :: rest) = d :: inlinePayloads rest := by
          simp [inlinePayloads, hd]
        rw [hip]
        cases hL : inlinePayloads rest with
        | nil => simp [hL]
        | cons x xs =>
          rw [List.getLast?_cons_cons]
          cases hg : (x :: xs).getLast? with
          | none =>
            exact absurd (List.getLast?_eq_none_iff.mp hg) (List.cons_ne_nil x xs)
          | some y => rfl

/-- The part_000 extraction equals the last truthy payload. -/
theorem extractLastInline_eq_getLast (parts : List (Option String)) :
    extractLastInline parts = (inlinePayloads parts).getLast? := by
  rw [extractLastInline, extract_fold_last parts none]
  cases (inlinePayloads parts).getLast? <;> rfl

/-- A loop whose step never throws dispatches every chunk and accumulates
exactly the pushed parts in order. -/
theorem synthLoop_all_ok (step : Nat → List Char → Except String (Option String))
    (f : Nat → List Char → Option String)
    (hstep : ∀ i c, step i c = Except.ok (f i c)) :
    ∀ (cs : List (List Char)) (s : Nat),
      synthLoop step s cs =
        (cs.enumFrom s,
         Except.ok ((cs.enumFrom s).filterMap (fun q => f q.1 q.2))) := by
  intro cs
  induction cs with
  | nil => intro s; simp [synthLoop, List.enumFrom]
  | cons c rest ih =>
    intro s
    rw [synthLoop, hstep s c, ih (s + 1)]
    simp only [List.enumFrom, List.filterMap_cons]
    cases f s c <;> simp

/-- C5 counterexample: in preload.js a Gemini response with no truthy inline
audio payload does not fail the run: the narration completes with no error and
an empty artifact.  In part_000 the missing payload does throw
`No audio returned`, but that variant keeps the last payload, not the first. -/
theorem gemini_no_audio_silent_success :
    (generateNarration "hello".toList [] false (Except.ok none)
      (geminiStep (fun _ => Except.ok [some "", none])) 3000).error = none ∧
    (generateNarration "hello".toList [] false (Except.ok none)
      (geminiStep (fun _ => Except.ok [some "", none])) 3000).audioUrl = some [] ∧
    extractFirstInline [some "A", some "B"] = some "A" ∧
    extractLastInline [some "A", some "B"] = some "B" ∧
    generateNarration000 "hi".toList [] (Except.ok [some "A", some "B"]) =
      { error := none, audioUrl := some "B" } ∧
    (generateNarration000 "hi".toList [] (Except.ok [some "", none])).error =
      some "No audio returned" := by
  refine ⟨?_, ?_, ?_, ?_, ?_, ?_⟩ <;> decide

/-- C5 (amended): the preload.js Gemini branch takes the first truthy inline
payload of each response and, when a response has none, pushes nothing and
continues without error — the run succeeds with the payloads that did arrive.
The part_000 variant fails a payload-free response with `No audio returned`
but extracts the last payload rather than the first. -/
theorem gemini_inline_audio_extraction :
    (∀ parts, extractFirstInline parts = (inlinePayloads parts).head?) ∧
    (∀ parts, extractLastInline parts = (inlinePayloads parts).getLast?) ∧
    (∀ (narrationText : List Char) (rules : List PronunciationRule)
       (needsTranslate : Bool) (translate : Except String (Option (List Char)))
       (maxChars : Nat) (responses : Nat → Except String (List (Option String)))
       (partsOf : Nat → List (Option String)) (ruleText trText : List Char),
      applyRules narrationText rules = Except.ok ruleText →
      translationStage needsTranslate translate ruleText = Except.ok trText →
      (∀ i, responses i = Except.ok (partsOf i)) →
      (generateNarration narrationText rules needsTranslate translate
        (geminiStep responses) maxChars).error = none ∧
      (generateNarration narrationText rules needsTranslate translate
        (geminiStep responses) maxChars).audioUrl =
        some ((((splitTextIntoChunks trText maxChars).map
          (fun c => if containsSpeak ruleText then wrapSpeak c else c)).enumFrom 0).filterMap
            (fun q => extractFirstInline (partsOf q.1)))) ∧
    (∀ (narrationText : List Char) (rules : List PronunciationRule)
       (response : Except String (List (Option String))) (parts : List (Option String))
       (t : List Char),
      applyRules narrationText rules = Except.ok t →
      response = Except.ok parts →
      extractLastInline parts = none →
      generateNarration000 narrationText rules response =
        { error := some "No audio returned", audioUrl := none }) := by
  refine ⟨extractFirstInline_eq_head, extractLastInline_eq_getLast, ?_, ?_⟩
  · intro narrationText rules needsTranslate translate maxChars responses partsOf
      ruleText trText hr ht hresp
    have hstep : ∀ i c, geminiStep responses i c =
        Except.ok (extractFirstInline (partsOf i)) := by
      intro i c
      simp [geminiStep, hresp i]
    have hloop := synthLoop_all_ok (geminiStep responses)
      (fun i _ => extractFirstInline (partsOf i)) hstep
      ((splitTextIntoChunks trText maxChars).map
        (fun c => if containsSpeak ruleText then wrapSpeak c else c)) 0
    rw [generateNarration_run narrationText rules needsTranslate translate
      (geminiStep responses) maxChars ruleText trText hr ht, hloop]
    exact ⟨rfl, rfl⟩
  · intro narrationText rules response parts t hr hresp hlast
    simp [generateNarration000, hr, hresp, hlast]

/-- Witness: one chunk whose response carries its audio in the second part —
the run succeeds and the artifact holds exactly that payload. -/
theorem gemini_inline_audio_extraction_witness :
    (generateNarration "hello".toList [] false (Except.ok none)
      (geminiStep (fun _ => Except.ok [none, some "X"])) 3000).error = none ∧
    (generateNarration "hello".toList [] false (Except.ok none)
      (geminiStep (fun _ => Except.ok [none, some "X"])) 3000).audioUrl = some ["X"] := by
  have h := gemini_inline_audio_extraction.2.2.1 "hello".toList [] false (Except.ok none)
    3000 (fun _ => Except.ok [none, some "X"]) (fun _ => [none, some "X"])
    "hello".toList "hello".toList rfl rfl (fun _ => rfl)
  refine ⟨h.1, ?_⟩
  rw [h.2]
  decide

/-! ## Translation pre-pass (claim C8) -/

/-- Once rule application and translation both succeed, the translated (or
fallen-back) text is what gets chunked. -/
theorem generateNarration_chunkedText (narrationText : List Char)
    (rules : List PronunciationRule) (needsTranslate : Bool)
    (translate : Except String (Option (List Char)))
    (step : Nat → List Char → Except String (Option String)) (maxChars : Nat)
    (ruleText trText : List Char)
    (hr : applyRules narrationText rules = Except.ok ruleText)
    (ht : translationStage needsTranslate translate ruleText = Except.ok trText) :
    (generateNarration narrationText rules needsTranslate translate step maxChars).chunkedText =
      some trText := by
  rw [generateNarration_run narrationText rules needsTranslate translate step maxChars
    ruleText trText hr ht]
  split <;> rfl

/-- C8 counterexample: a rejected translation call is not absorbed.  The run
aborts with the translation error before any chunking or dispatch, instead of
falling back to the untranslated text and continuing. -/
theorem translation_rejection_aborts_run :
    (generateNarration "hello world".toList [] true (Except.error "TranslateDown")
      (fun _ _ => Except.ok (some "A")) 3000).error = some "TranslateDown" ∧
    (generateNarration "hello world".toList [] true (Except.error "TranslateDown")
      (fun _ _ => Except.ok (some "A")) 3000).audioUrl = none ∧
    (generateNarration "hello world".toList [] true (Except.error "TranslateDown")
      (fun _ _ => Except.ok (some "A")) 3000).sent = [] ∧
    (generateNarration "hello world".toList [] true (Except.error "TranslateDown")
      (fun _ _ => Except.ok (some "A")) 3000).chunkedText = none := by
  refine ⟨rfl, rfl, rfl, rfl⟩

/-- C8 (amended): when the target language differs from the default the whole
rule-substituted script goes to translation once before chunking; an absent or
empty translation result falls back to the untranslated text and the run
continues, a non-empty result is chunked instead, and a rejected translation
call aborts the run with its error (nothing chunked, nothing dispatched, no
artifact); with the default language the stage is skipped. -/
theorem translation_fallback_behaviour (narrationText : List Char)
    (rules : List PronunciationRule) (translate : Except String (Option (List Char)))
    (step : Nat → List Char → Except String (Option String)) (maxChars : Nat)
    (ruleText : List Char)
    (hr : applyRules narrationText rules = Except.ok ruleText) :
    (translate = Except.ok none →
      (generateNarration narrationText rules true translate step maxChars).chunkedText =
        some ruleText) ∧
    (∀ tr, translate = Except.ok (some tr) → tr.isEmpty = true →
      (generateNarration narrationText rules true translate step maxChars).chunkedText =
        some ruleText) ∧
    (∀ tr, translate = Except.ok (some tr) → tr.isEmpty = false →
      (generateNarration narrationText rules true translate step maxChars).chunkedText =
        some tr) ∧
    (∀ e, translate = Except.error e →
      (generateNarration narrationText rules true translate step maxChars).error = some e ∧
      (generateNarration narrationText rules true translate step maxChars).audioUrl = none ∧
      (generateNarration narrationText rules true translate step maxChars).sent = [] ∧
      (generateNarration narrationText rules true translate step maxChars).chunkedText = none) ∧
    ((generateNarration narrationText rules false translate step maxChars).chunkedText =
      some ruleText) := by
  refine ⟨?_, ?_, ?_, ?_, ?_⟩
  · intro htr
    exact generateNarration_chunkedText narrationText rules true translate step maxChars
      ruleText ruleText hr (by simp [translationStage, htr])
  · intro tr htr hE
    exact generateNarration_chunkedText narrationText rules true translate step maxChars
      ruleText ruleText hr (by simp [translationStage, htr, hE])
  · intro tr htr hE
    exact generateNarration_chunkedText narrationText rules true translate step maxChars
      ruleText tr hr (by simp [translationStage, htr, hE])
  · intro e htr
    have hstage : translationStage true translate ruleText = Except.error e := by
      simp [translationStage, htr]
    refine ⟨?_, ?_, ?_, ?_⟩ <;> simp [generateNarration, hr, hstage]
  · exact generateNarration_chunkedText narrationText rules false translate step maxChars
      ruleText ruleText hr rfl

/-- Witness: an empty translation result falls back to the untranslated text,
which is then chunked. -/
theorem translation_fallback_behaviour_witness :
    (generateNarration "hi".toList [] true (Except.ok (some []))
      (fun _ _ => Except.ok (some "A")) 3000).chunkedText = some "hi".toList := by
  have h := (translation_fallback_behaviour "hi".toList [] (Except.ok (some []))
    (fun _ _ => Except.ok (some "A")) 3000 "hi".toList rfl).2.1 [] rfl rfl
  exact h

/-! ## Text chunker (claims C1 and C2) -/

/-- The head of a `dropWhile` residue fails the predicate. -/
theorem dropWhile_head_not (p : Char → Bool) :
    ∀ (l : List Char) (c : Char) (cs : List Char), l.dropWhile p = c :: cs → p c = false := by
  intro l
  induction l with
  | nil => intro c cs h; simp [List.dropWhile] at h
  | cons a l ih =>
    intro c cs h
    by_cases hpa : p a
    · rw [List.dropWhile_cons, if_pos hpa] at h
      exact ih c cs h
    · rw [List.dropWhile_cons, if_neg hpa] at h
      cases h
      simpa using hpa

/-- A list whose head fails the predicate is a `dropWhile` fixed point. -/
theorem dropWhile_eq_self_of_head (p : Char → Bool) (l : List Char)
    (h : ∀ c cs, l = c :: cs → p c = false) : l.dropWhile p = l := by
  cases l with
  | nil => rfl
  | cons c cs => rw [List.dropWhile_cons, if_neg (by simp [h c cs rfl])]

/-- `dropWhile` is idempotent. -/
theorem dropWhile_idem (p : Char → Bool) (l : List Char) :
    (l.dropWhile p).dropWhile p = l.dropWhile p :=
  dropWhile_eq_self_of_head p _ (fun c cs h => dropWhile_head_not p l c cs h)

/-- Trimming an already-trimmed piece changes nothing. -/
theorem jsTrim_idem (t : List Char) : jsTrim (jsTrim t) = jsTrim t := by
  unfold jsTrim
  cases hv : (t.dropWhile jsIsWhitespace).reverse.dropWhile jsIsWhitespace with
  | nil => simp [hv]
  | cons x xs =>
    have hvne : (t.dropWhile jsIsWhitespace).reverse.dropWhile jsIsWhitespace ≠ [] := by
      rw [hv]; exact List.cons_ne_nil x xs
    have hane : t.dropWhile jsIsWhitespace ≠ [] := by
      intro ha
      rw [ha] at hvne
      simp [List.dropWhile] at hvne
    obtain ⟨c0, cs0, ha⟩ := List.exists_cons_of_ne_nil hane
    have hc0 : jsIsWhitespace c0 = false := dropWhile_head_not jsIsWhitespace t c0 cs0 ha
    obtain ⟨pre, hpre⟩ := List.dropWhile_suffix
      (l := (t.dropWhile jsIsWhitespace).reverse) jsIsWhitespace
    have hlast : (x :: xs).getLast? = some c0 := by
      rw [← hv, ← List.getLast?_append_of_ne_nil pre hvne, hpre, List.getLast?_reverse, ha]
      rfl
    have hA : ((x :: xs).reverse).head? = some c0 := by
      rw [List.head?_reverse]
      exact hlast
    have hB : (x :: xs).reverse.dropWhile jsIsWhitespace = (x :: xs).reverse := by
      apply dropWhile_eq_self_of_head
      intro c cs hcc
      rw [hcc] at hA
      cases hA
      exact hc0
    rw [hB, List.reverse_reverse, ← hv, dropWhile_idem, hv]

/-- Trimming never lengthens a piece. -/
theorem jsTrim_length_le (t : List Char) : (jsTrim t).length ≤ t.length := by
  unfold jsTrim
  rw [List.length_reverse]
  have h1 := (List.dropWhile_suffix
    (l := (t.dropWhile jsIsWhitespace).reverse) jsIsWhitespace).length_le
  have h2 := (List.dropWhile_suffix (l := t) jsIsWhitespace).length_le
  rw [List.length_reverse] at h1
  omega

/-- Trimming only discards whitespace characters. -/
theorem filter_jsTrim (t : List Char) :
    (jsTrim t).filter (fun c => !jsIsWhitespace c) = t.filter (fun c => !jsIsWhitespace c) := by
  have hdw : ∀ l : List Char,
      (l.dropWhile jsIsWhitespace).filter (fun c => !jsIsWhitespace c) =
        l.filter (fun c => !jsIsWhitespace c) := by
    intro l
    conv_rhs => rw [← List.takeWhile_append_dropWhile (p := jsIsWhitespace) (l := l)]
    rw [List.filter_append]
    have hnil : (l.takeWhile jsIsWhitespace).filter (fun c => !jsIsWhitespace c) = [] := by
      rw [List.filter_eq_nil_iff]
      intro a ha
      simp [List.mem_takeWhile_imp ha]
    rw [hnil, List.nil_append]
  unfold jsTrim
  rw [List.filter_reverse, hdw, List.filter_reverse, hdw, List.reverse_reverse]

/-- The JS `lastIndexOf` result never exceeds the `fromIndex` argument. -/
theorem jsLastIndexOf_le (t : List Char) (ch : Char) (f : Nat) :
    jsLastIndexOf t ch f ≤ (f : Int) := by
  unfold jsLastIndexOf
  cases hg : ((List.range (min (f + 1) t.length)).filter
      (fun i => t.get? i = some ch)).getLast? with
  | none =>
    show (-1 : Int) ≤ (f : Int)
    omega
  | some i =>
    show ((i : Nat) : Int) ≤ (f : Int)
    have hmem := List.mem_of_mem_getLast? hg
    have hlt := List.mem_range.mp (List.mem_filter.mp hmem).1
    omega

/-- The cut point always advances, given a positive window. -/
theorem nextCut_gt (text : List Char) (maxChars cur : Nat)
    (h1 : 1 ≤ maxChars) (h2 : cur < text.length) : cur < nextCut text maxChars cur := by
  unfold nextCut
  split
  · split
    · next hbp => omega
    · omega
  · omega

/-- The cut point stays within the window. -/
theorem nextCut_le_window (text : List Char) (maxChars cur : Nat) :
    nextCut text maxChars cur ≤ cur + maxChars := by
  unfold nextCut
  have hs := jsLastIndexOf_le text ' ' (min (cur + maxChars) text.length)
  have hn := jsLastIndexOf_le text '\n' (min (cur + maxChars) text.length)
  split
  · split
    · next hbp =>
      rcases max_cases (jsLastIndexOf text ' ' (min (cur + maxChars) text.length))
        (jsLastIndexOf text '\n' (min (cur + maxChars) text.length)) with ⟨he, _⟩ | ⟨he, _⟩ <;>
        rw [he] at hbp ⊢ <;> omega
    · omega
  · omega

/-- The cut point stays within the text. -/
theorem nextCut_le_length (text : List Char) (maxChars cur : Nat)
    (h2 : cur < text.length) : nextCut text maxChars cur ≤ text.length := by
  unfold nextCut
  have hs := jsLastIndexOf_le text ' ' (min (cur + maxChars) text.length)
  have hn := jsLastIndexOf_le text '\n' (min (cur + maxChars) text.length)
  split
  · split
    · next hbp =>
      rcases max_cases (jsLastIndexOf text ' ' (min (cur + maxChars) text.length))
        (jsLastIndexOf text '\n' (min (cur + maxChars) text.length)) with ⟨he, _⟩ | ⟨he, _⟩ <;>
        rw [he] at hbp ⊢ <;> omega
    · omega
  · omega

/-- Every piece produced by the chunk loop is trimmed and fits the window. -/
theorem chunkLoop_bounds (text : List Char) (maxChars : Nat) :
    ∀ (fuel cur : Nat), ∀ piece ∈ chunkLoop text maxChars fuel cur,
      piece.length ≤ maxChars ∧ jsTrim piece = piece := by
  intro fuel
  induction fuel with
  | zero => intro cur piece hp; simp [chunkLoop] at hp
  | succ fuel ih =>
    intro cur piece hp
    rw [chunkLoop] at hp
    by_cases hcur : cur < text.length
    · rw [if_pos hcur] at hp
      rcases List.mem_cons.mp hp with hp | hp
      · subst hp
        refine ⟨?_, jsTrim_idem _⟩
        have hlen := jsTrim_length_le
          ((text.drop cur).take (nextCut text maxChars cur - cur))
        have htake := List.length_take (nextCut text maxChars cur - cur) (text.drop cur)
        have hwin := nextCut_le_window text maxChars cur
        omega
      · exact ih _ piece hp
    · rw [if_neg hcur] at hp
      simp at hp

/-- C1: for a text longer than the positive window `maxChars`, every returned
chunk fits in `maxChars` characters, is non-empty, and is already trimmed (so
it stays non-empty after trimming). -/
theorem splitTextIntoChunks_bounds (text : List Char) (maxChars : Nat)
    (h1 : 1 ≤ maxChars) (h2 : maxChars < text.length) :
    ∀ c ∈ splitTextIntoChunks text maxChars,
      c.length ≤ maxChars ∧ 0 < c.length ∧ jsTrim c = c := by
  intro c hc
  unfold splitTextIntoChunks at hc
  rw [if_neg (by omega)] at hc
  have hmem := List.mem_filter.mp hc
  have hbounds := chunkLoop_bounds text maxChars text.length 0 c hmem.1
  have hpos : 0 < c.length := by simpa using hmem.2
  exact ⟨hbounds.1, hpos, hbounds.2⟩

/-- Witness: the first chunk of a concrete long split is within bounds,
non-empty, and trimmed. -/
theorem splitTextIntoChunks_bounds_witness :
    ("hello".toList).length ≤ 10 ∧ 0 < ("hello".toList).length ∧
      jsTrim "hello".toList = "hello".toList := by
  have h := splitTextIntoChunks_bounds "hello world this is a test".toList 10
    (by decide) (by decide)
  exact h "hello".toList (by decide)

/-- Dropping the empty pieces does not change the concatenation. -/
theorem flatten_filter_nonempty (l : List (List Char)) :
    (l.filter (fun c => 0 < c.length)).flatten = l.flatten := by
  induction l with
  | nil => rfl
  | cons c rest ih =>
    by_cases hc : 0 < c.length
    · rw [List.filter_cons_of_pos (by simpa using hc), List.flatten_cons,
        List.flatten_cons, ih]
    · have : c = [] := List.length_eq_zero.mp (by omega)
      subst this
      rw [List.filter_cons_of_neg (by simp), List.flatten_cons, ih, List.nil_append]

/-- The loop tiles the text: joining its pieces preserves every non-whitespace
character of the remaining text, in order. -/
theorem chunkLoop_reconstruct (text : List Char) (maxChars : Nat) (h1 : 1 ≤ maxChars) :
    ∀ (fuel cur : Nat), text.length - cur ≤ fuel →
      (chunkLoop text maxChars fuel cur).flatten.filter (fun c => !jsIsWhitespace c) =
        (text.drop cur).filter (fun c => !jsIsWhitespace c) := by
  intro fuel
  induction fuel with
  | zero =>
    intro cur hfuel
    rw [chunkLoop, List.drop_eq_nil_of_le (by omega)]
    rfl
  | succ fuel ih =>
    intro cur hfuel
    rw [chunkLoop]
    by_cases hcur : cur < text.length
    · rw [if_pos hcur, List.flatten_cons, List.filter_append, filter_jsTrim]
      have hcut := nextCut_gt text maxChars cur h1 hcur
      have hlen := nextCut_le_length text maxChars cur hcur
      have hih := ih (nextCut text maxChars cur) (by omega)
      rw [hih]
      conv_rhs => rw [← List.take_append_drop (nextCut text maxChars cur - cur) (text.drop cur)]
      rw [List.filter_append, List.drop_drop]
      have harith : cur + (nextCut text maxChars cur - cur) = nextCut text maxChars cur := by
        omega
      rw [harith]
    · rw [if_neg hcur, List.drop_eq_nil_of_le (by omega)]
      rfl

/-- C2: concatenating the returned chunks in order preserves exactly the
original sequence of non-whitespace characters — nothing is reordered and only
whitespace at cut points is dropped. -/
theorem splitTextIntoChunks_preserves_content (text : List Char) (maxChars : Nat)
    (h1 : 1 ≤ maxChars) :
    (splitTextIntoChunks text maxChars).flatten.filter (fun c => !jsIsWhitespace c) =
      text.filter (fun c => !jsIsWhitespace c) := by
  unfold splitTextIntoChunks
  split
  · simp
  · rw [flatten_filter_nonempty, chunkLoop_reconstruct text maxChars h1 text.length 0
      (by omega)]
    rfl

/-- Witness: the non-whitespace character stream of a concrete split equals
that of the source text. -/
theorem splitTextIntoChunks_preserves_content_witness :
    (splitTextIntoChunks "hello world this is a test".toList 10).flatten.filter
      (fun c => !jsIsWhitespace c) = "helloworldthisisatest".toList := by
  have h := splitTextIntoChunks_preserves_content "hello world this is a test".toList 10
    (by decide)
  rw [h]
  decide

/-! ## Pronunciation rewriting totality (claim C7) -/

/-- A word character is none of the regex metacharacters the compile check
cares about. -/
theorem isWordChar_ne (c : Char) (hc : isWordChar c = true) :
    c ≠ '\\' ∧ c ≠ '(' ∧ c ≠ ')' ∧ c ≠ '[' ∧ c ≠ ']' := by
  refine ⟨?_, ?_, ?_, ?_, ?_⟩ <;> (intro h; subst h; exact absurd hc (by decide))

/-- Scanning a run of word characters leaves the compile state unchanged. -/
theorem groupScan_wordchars : ∀ (w : List Char), w.all isWordChar = true →
    ∀ (rest : List Char) (d : Nat) (ic : Bool),
      groupScan (w ++ rest) d ic = groupScan rest d ic := by
  intro w
  induction w with
  | nil => intro _ rest d ic; rfl
  | cons c w ih =>
    intro hall rest d ic
    rw [List.all_cons, Bool.and_eq_true] at hall
    obtain ⟨h1, h2, h3, h4, h5⟩ := isWordChar_ne c hall.1
    cases ic with
    | false =>
      rw [List.cons_append, groupScan.eq_def]
      simp [h1, h2, h3, h4, h5]
      exact ih hall.2 rest d false
    | true =>
      rw [List.cons_append, groupScan.eq_def]
      simp [h1, h5]
      exact ih hall.2 rest d true

/-- The pattern built from a word made of word characters compiles. -/
theorem patternOf_compiles (w : List Char) (hall : w.all isWordChar = true) :
    jsRegExpCompiles (patternOf w) = true := by
  unfold jsRegExpCompiles patternOf
  rw [groupScan.eq_def]
  simp only [reduceIte]
  rw [groupScan_wordchars w hall]
  decide

/-- A rule whose word is made of word characters never throws. -/
theorem applyRule_wordchar (text : List Char) (r : PronunciationRule)
    (h : r.word.all isWordChar = true) :
    applyRule text r = Except.ok (replaceWholeWordCI text r.word r.«alias») := by
  unfold applyRule
  rw [patternOf_compiles r.word h]
  rfl

/-- C7 counterexample: rule application is not error-free for every word.  The
word `(` yields the pattern `\b(\b`, whose unbalanced group makes the RegExp
constructor throw; the rewriting aborts and the narration run fails with the
SyntaxError instead of producing audio. -/
theorem pronunciation_rule_can_throw :
    applyRules "hello".toList [⟨"(".toList, "x".toList⟩] = Except.error () ∧
    (generateNarration "hello".toList [⟨"(".toList, "x".toList⟩] false (Except.ok none)
      (fun _ _ => Except.ok (some "A")) 3000).error =
      some "SyntaxError: Invalid regular expression" ∧
    (generateNarration "hello".toList [⟨"(".toList, "x".toList⟩] false (Except.ok none)
      (fun _ _ => Except.ok (some "A")) 3000).audioUrl = none := by
  refine ⟨?_, ?_, ?_⟩ <;> decide

/-- C7 (amended): for every script text, rule application is a pure total
transform whenever each rule word consists of word characters (as the
scenario words do): it succeeds and equals the left-to-right fold of the
single-rule rewrites; the empty rule list is a no-op.  Words that yield an
invalid pattern instead make the RegExp constructor throw. -/
theorem pronunciation_rewriting_total :
    (∀ (text : List Char) (rules : List PronunciationRule),
      (∀ r ∈ rules, r.word.all isWordChar = true) →
      applyRules text rules =
        Except.ok (rules.foldl (fun t r => replaceWholeWordCI t r.word r.«alias») text)) ∧
    (∀ text : List Char, applyRules text [] = Except.ok text) := by
  constructor
  · intro text rules
    induction rules generalizing text with
    | nil => intro _; rfl
    | cons r rules ih =>
      intro hall
      rw [applyRules, applyRule_wordchar text r (hall r (List.mem_cons_self r rules))]
      rw [List.foldl_cons]
      exact ih _ (fun q hq => hall q (List.mem_cons_of_mem r hq))
  · intro text
    rfl

/-- Witness: the scenario rule list applies without error and performs the
whole-word substitution. -/
theorem pronunciation_rewriting_total_witness :
    applyRules "Ask Gemini about Gemini.".toList [⟨"Gemini".toList, "Jeminai".toList⟩] =
      Except.ok "Ask Jeminai about Jeminai.".toList := by
  have h := pronunciation_rewriting_total.1 "Ask Gemini about Gemini.".toList
    [⟨"Gemini".toList, "Jeminai".toList⟩] (by decide)
  rw [h]
  decide

/-! ## Whole-word replacement semantics (claim C6) -/

/-- The code point of the ASCII-lowered character. -/
theorem asciiLower_toNat (c : Char) :
    (asciiLower c).toNat =
      if 65 ≤ c.toNat ∧ c.toNat ≤ 90 then c.toNat + 32 else c.toNat := by
  unfold asciiLower
  split
  · next h =>
    have hv : (c.toNat + 32).isValidChar := Or.inl (by omega)
    rw [Char.ofNat, dif_pos hv]
    simp [Char.ofNatAux, Char.toNat, UInt32.toNat, BitVec.toNat_ofNatLt]
  · rfl

/-- Case folding never moves a character across the word-character class. -/
theorem ciEq_wordChar (a b : Char) (h : ciEq a b = true) :
    isWordChar a = isWordChar b := by
  have hab : asciiLower a = asciiLower b := of_decide_eq_true h
  have hn : (asciiLower a).toNat = (asciiLower b).toNat := by rw [hab]
  rw [asciiLower_toNat, asciiLower_toNat] at hn
  unfold isWordChar
  rw [decide_eq_decide]
  split_ifs at hn <;> constructor <;> intro hh <;> omega

/-- A non-word character never matches a word character case-insensitively. -/
theorem ciEq_false_of (c w : Char) (hc : isWordChar c = false)
    (hw : isWordChar w = true) : ciEq c w = false := by
  cases h : ciEq c w with
  | false => rfl
  | true =>
    rw [ciEq_wordChar c w h, hw] at hc
    exact absurd hc (by simp)

/-- A case-insensitive prefix match determines the matched slice up to case
and fits within the subject. -/
theorem isPrefixCI_parts : ∀ (word t : List Char), isPrefixCI word t = true →
    ciListEq (t.take word.length) word = true ∧ word.length ≤ t.length := by
  intro word
  induction word with
  | nil => intro t _; exact ⟨rfl, Nat.zero_le _⟩
  | cons w ws ih =>
    intro t hp
    cases t with
    | nil => simp [isPrefixCI] at hp
    | cons c cs =>
      rw [isPrefixCI, Bool.and_eq_true] at hp
      obtain ⟨h1, h2⟩ := ih cs hp.2
      refine ⟨?_, by simpa using h2⟩
      rw [List.length_cons, List.take_succ_cons, ciListEq, Bool.and_eq_true]
      exact ⟨hp.1, h1⟩

/-- Case-insensitive equality transports the word-character class of a list. -/
theorem ciListEq_all_wordChar : ∀ (a b : List Char), ciListEq a b = true →
    b.all isWordChar = true → a.all isWordChar = true := by
  intro a
  induction a with
  | nil => intro b _ _; rfl
  | cons x xs ih =>
    intro b hab hball
    cases b with
    | nil => simp [ciListEq] at hab
    | cons y ys =>
      rw [ciListEq, Bool.and_eq_true] at hab
      rw [List.all_cons, Bool.and_eq_true] at hball ⊢
      exact ⟨by rw [ciEq_wordChar x y hab.1]; exact hball.1, ih ys hab.2 hball.2⟩

/-- Case-insensitively equal lists have equal length. -/
theorem ciListEq_length : ∀ (a b : List Char), ciListEq a b = true →
    a.length = b.length := by
  intro a
  induction a with
  | nil => intro b h; cases b; rfl; simp [ciListEq] at h
  | cons x xs ih =>
    intro b h
    cases b with
    | nil => simp [ciListEq] at h
    | cons y ys =>
      rw [ciListEq, Bool.and_eq_true] at h
      simp [ih ys h.2]

/-- A slice of word characters closed by a right boundary is exactly the
maximal word-character run. -/
theorem takeWhile_eq_take : ∀ (t : List Char) (L : Nat),
    (t.take L).all isWordChar = true → L ≤ t.length →
    rightBoundary (t.drop L) = true →
    t.takeWhile isWordChar = t.take L := by
  intro t
  induction t with
  | nil =>
    intro L _ hL _
    simp at hL
    simp [hL]
  | cons c cs ih =>
    intro L hall hL hrb
    cases L with
    | zero =>
      rw [List.drop_zero] at hrb
      rw [rightBoundary] at hrb
      rw [List.take_zero, List.takeWhile_cons_of_neg]
      simp at hrb
      simp [hrb]
    | succ L =>
      rw [List.take_succ_cons, List.all_cons, Bool.and_eq_true] at hall
      rw [List.take_succ_cons, List.takeWhile_cons_of_pos hall.1]
      rw [List.length_cons] at hL
      exact congrArg (c :: ·) (ih L hall.2 (by omega) hrb)

/-- `dropWhile` is the drop of the run length. -/
theorem dropWhile_eq_drop_run (p : Char → Bool) : ∀ (t : List Char),
    t.dropWhile p = t.drop (t.takeWhile p).length := by
  intro t
  induction t with
  | nil => rfl
  | cons c cs ih =>
    by_cases hc : p c
    · rw [List.takeWhile_cons_of_pos hc, List.dropWhile_cons_of_pos hc,
        List.length_cons, List.drop_succ_cons, ih]
    · rw [List.takeWhile_cons_of_neg (by simpa using hc),
        List.dropWhile_cons_of_neg (by simpa using hc), List.length_nil, List.drop_zero]

/-- What remains after a maximal run starts with a boundary. -/
theorem rightBoundary_dropWhile (t : List Char) :
    rightBoundary (t.dropWhile isWordChar) = true := by
  cases h : t.dropWhile isWordChar with
  | nil => rfl
  | cons c cs =>
    rw [rightBoundary]
    simp [dropWhile_head_not isWordChar t c cs h]

/-- A case-insensitive copy of the word is matched by the word, whatever
follows it. -/
theorem isPrefixCI_of_ciListEq : ∀ (a word s : List Char), ciListEq a word = true →
    isPrefixCI word (a ++ s) = true := by
  intro a
  induction a with
  | nil =>
    intro word s h
    cases word with
    | nil => rfl
    | cons w ws => simp [ciListEq] at h
  | cons x xs ih =>
    intro word s h
    cases word with
    | nil => rfl
    | cons w ws =>
      rw [ciListEq, Bool.and_eq_true] at h
      rw [List.cons_append, isPrefixCI, Bool.and_eq_true]
      exact ⟨h.1, ih ws s h.2⟩

/-- A replacement string with no dollar sign is inserted literally. -/
theorem expandAlias_no_dollar : ∀ (a m : List Char),
    a.all (fun c => !(c = '$')) = true → expandAlias a m = a := by
  intro a
  induction a with
  | nil => intro m _; rfl
  | cons c rest ih =>
    intro m hall
    rw [List.all_cons, Bool.and_eq_true] at hall
    have hc : c ≠ '$' := by simpa using hall.1
    rw [expandAlias.eq_def]
    simp only [if_neg hc]
    exact congrArg (c :: ·) (ih m hall.2)

/-- The spec rewrite of the empty text is empty at any fuel. -/
theorem specAux_nil (word al : List Char) (fuel : Nat) (b : Bool) :
    specRewriteAux word al fuel b [] = [] := by
  cases fuel <;> rfl

/-- The spec rewrite does not depend on the fuel once it covers the text. -/
theorem specAux_fuel (word al : List Char) : ∀ (f1 : Nat) (t : List Char) (f2 : Nat) (b : Bool),
    t.length ≤ f1 → t.length ≤ f2 →
    specRewriteAux word al f1 b t = specRewriteAux word al f2 b t := by
  intro f1
  induction f1 with
  | zero =>
    intro t f2 b h1 _
    cases t with
    | nil => rw [specAux_nil, specAux_nil]
    | cons c rest => simp at h1
  | succ f1 ih =>
    intro t f2 b h1 h2
    cases t with
    | nil => rw [specAux_nil, specAux_nil]
    | cons c rest =>
      cases f2 with
      | zero => simp at h2
      | succ f2 =>
        rw [List.length_cons] at h1 h2
        rw [specRewriteAux, specRewriteAux]
        by_cases hc : isWordChar c = true
        · rw [if_pos hc, if_pos hc]
          congr 1
          exact ih _ f2 true
            (le_trans (List.dropWhile_suffix _).length_le (by omega))
            (le_trans (List.dropWhile_suffix _).length_le (by omega))
        · rw [if_neg hc, if_neg hc]
          exact congrArg (c :: ·) (ih _ f2 true (by omega) (by omega))

/-- At a separator (or the end of the text) the boundary flag is irrelevant. -/
theorem specAux_sep (word al : List Char) (fuel : Nat) (t : List Char)
    (ht : rightBoundary t = true) (b1 b2 : Bool) :
    specRewriteAux word al fuel b1 t = specRewriteAux word al fuel b2 t := by
  cases t with
  | nil => rw [specAux_nil, specAux_nil]
  | cons c rest =>
    rw [rightBoundary] at ht
    have hc : isWordChar c = false := by simpa using ht
    cases fuel with
    | zero => rfl
    | succ fuel =>
      rw [specRewriteAux, specRewriteAux, if_neg (by simp [hc]), if_neg (by simp [hc])]

/-- With no boundary before it, a word character is copied through and the
flag stays down. -/
theorem specAux_push (word al : List Char) (fuel : Nat) (c : Char) (rest : List Char)
    (hc : isWordChar c = true) (hfuel : rest.length ≤ fuel) :
    specRewriteAux word al (fuel + 1) false (c :: rest) =
      c :: specRewriteAux word al fuel false rest := by
  rw [specRewriteAux, if_pos hc, if_neg (by simp)]
  cases rest with
  | nil => simp [specAux_nil]
  | cons d rest2 =>
    by_cases hd : isWordChar d = true
    · rw [List.takeWhile_cons_of_pos hd, List.dropWhile_cons_of_pos hd]
      cases fuel with
      | zero => simp at hfuel
      | succ f =>
        rw [List.length_cons] at hfuel
        rw [specRewriteAux, if_pos hd, if_neg (by simp)]
        rw [List.cons_append, List.cons_append]
        rw [specAux_fuel word al (f + 1) _ f true
          (le_trans (List.dropWhile_suffix _).length_le (by omega))
          (le_trans (List.dropWhile_suffix _).length_le (by omega))]
        simp
    · have hdF : ¬ (isWordChar d = true) := hd
      rw [List.takeWhile_cons_of_neg (by simpa using hdF),
        List.dropWhile_cons_of_neg (by simpa using hdF)]
      rw [List.singleton_append]
      refine congrArg (c :: ·) ?_
      exact specAux_sep word al fuel (d :: rest2)
        (by rw [rightBoundary]; simp [(by simpa using hdF : isWordChar d = false)]) true false

/-- The last character of a non-empty word-character run blocks the next left
boundary. -/
theorem leftBoundary_getLast (l : List Char) (hall : l.all isWordChar = true)
    (hne : l ≠ []) : leftBoundary l.getLast? = false := by
  cases hg : l.getLast? with
  | none => exact absurd (List.getLast?_eq_none_iff.mp hg) hne
  | some x =>
    have hx := List.mem_of_mem_getLast? hg
    have hw := List.all_eq_true.mp hall x hx
    simp [leftBoundary, hw]

/-- The scan of `String.replace` with the interpolated whole-word pattern
computes exactly the specification rewrite: every maximal word-character run
that equals the rule word case-insensitively and sits after a boundary is
replaced by the (dollar-free, hence literal) alias. -/
theorem replaceLoop_eq_spec (w : Char) (ws al : List Char)
    (hword : (w :: ws).all isWordChar = true)
    (hal : al.all (fun c => !(c = '$')) = true) :
    ∀ (fuel1 : Nat) (t : List Char) (fuel2 : Nat) (prev : Option Char),
      t.length ≤ fuel1 → t.length ≤ fuel2 →
      replaceLoop w ws al fuel1 prev t =
        specRewriteAux (w :: ws) al fuel2 (leftBoundary prev) t := by
  have hw : isWordChar w = true := by
    rw [List.all_cons, Bool.and_eq_true] at hword
    exact hword.1
  intro fuel1
  induction fuel1 with
  | zero =>
    intro t fuel2 prev h1 _
    cases t with
    | nil => rw [specAux_nil]; rfl
    | cons c rest => simp at h1
  | succ f ih =>
    intro t fuel2 prev h1 h2
    cases t with
    | nil => rw [specAux_nil]; rfl
    | cons c rest =>
      rw [List.length_cons] at h1 h2
      have hrest1 : rest.length ≤ f := by omega
      cases fuel2 with
      | zero => omega
      | succ g =>
      have hrest2 : rest.length ≤ g := by omega
      by_cases hc : isWordChar c = true
      · cases hb : leftBoundary prev with
        | false =>
          have hm : wholeMatchAt w ws prev (c :: rest) = false := by
            unfold wholeMatchAt
            rw [hb]
            simp
          rw [replaceLoop, if_neg (by simp [hm])]
          rw [specAux_push (w :: ws) al g c rest hc hrest2]
          rw [ih rest g (some c) hrest1 hrest2]
          rw [show leftBoundary (some c) = false by simp [leftBoundary, hc]]
        | true =>
          by_cases hm : wholeMatchAt w ws prev (c :: rest) = true
          · -- a whole-word match fires here
            have hm2 := hm
            unfold wholeMatchAt at hm2
            rw [Bool.and_eq_true, Bool.and_eq_true] at hm2
            obtain ⟨⟨hpre, _⟩, hrb⟩ := hm2
            obtain ⟨hcil, hlen⟩ := isPrefixCI_parts (w :: ws) (c :: rest) hpre
            simp only [List.length_cons] at hcil hlen
            have halltake : ((c :: rest).take (ws.length + 1)).all isWordChar = true :=
              ciListEq_all_wordChar _ _ hcil hword
            rw [List.drop_succ_cons] at hrb
            have htw : (c :: rest).takeWhile isWordChar = (c :: rest).take (ws.length + 1) :=
              takeWhile_eq_take (c :: rest) (ws.length + 1) halltake
                (by rw [List.length_cons]; omega) (by rw [List.drop_succ_cons]; exact hrb)
            rw [replaceLoop, if_pos hm]
            rw [expandAlias_no_dollar al _ hal]
            -- the matched slice is a non-empty word-character run
            have hmne : (c :: rest).take (ws.length + 1) ≠ [] := by
              rw [List.take_succ_cons]
              exact List.cons_ne_nil c _
            have hlb : leftBoundary ((c :: rest).take (ws.length + 1)).getLast? = false :=
              leftBoundary_getLast _ halltake hmne
            -- spec side fires as well
            rw [specRewriteAux, if_pos hc]
            have hcil2 : ciListEq (c :: rest.takeWhile isWordChar) (w :: ws) = true := by
              rw [← List.takeWhile_cons_of_pos hc, htw]
              exact hcil
            rw [if_pos (by simp [hcil2])]
            -- align the rewrite of the remainder
            have hww : rest.takeWhile isWordChar = rest.take ws.length := by
              have := htw
              rw [List.takeWhile_cons_of_pos hc, List.take_succ_cons] at this
              exact List.cons_injective this
            have hdd : rest.dropWhile isWordChar = rest.drop ws.length := by
              rw [dropWhile_eq_drop_run, hww, List.length_take]
              have : min ws.length rest.length = ws.length := by omega
              rw [this]
            rw [hdd]
            rw [ih (rest.drop ws.length) g ((c :: rest).take (ws.length + 1)).getLast?
              (by have := List.length_drop ws.length rest; omega)
              (by have := List.length_drop ws.length rest; omega)]
            rw [hlb]
            refine congrArg (al ++ ·) ?_
            exact specAux_sep (w :: ws) al g (rest.drop ws.length) hrb false true
          · have hmF : wholeMatchAt w ws prev (c :: rest) = false := by
              simpa using hm
            have hcil : ciListEq ((c :: rest).takeWhile isWordChar) (w :: ws) = false := by
              cases hq : ciListEq ((c :: rest).takeWhile isWordChar) (w :: ws) with
              | false => rfl
              | true =>
                exfalso
                have hlenrun : ((c :: rest).takeWhile isWordChar).length = ws.length + 1 := by
                  have := ciListEq_length _ _ hq
                  simpa using this
                have hpre : isPrefixCI (w :: ws) (c :: rest) = true := by
                  have hsplit : c :: rest =
                      (c :: rest).takeWhile isWordChar ++ (c :: rest).dropWhile isWordChar :=
                    (List.takeWhile_append_dropWhile isWordChar (c :: rest)).symm
                  rw [hsplit]
                  exact isPrefixCI_of_ciListEq _ _ _ hq
                have hrb : rightBoundary ((c :: rest).drop (ws.length + 1)) = true := by
                  rw [← hlenrun, ← dropWhile_eq_drop_run]
                  exact rightBoundary_dropWhile (c :: rest)
                have : wholeMatchAt w ws prev (c :: rest) = true := by
                  unfold wholeMatchAt
                  rw [hpre, hb, hrb]
                  rfl
                rw [this] at hmF
                exact absurd hmF (by simp)
            rw [replaceLoop, if_neg (by simp [hmF])]
            have hsame : specRewriteAux (w :: ws) al (g + 1) true (c :: rest) =
                specRewriteAux (w :: ws) al (g + 1) false (c :: rest) := by
              rw [specRewriteAux, specRewriteAux, if_pos hc, if_pos hc]
              have hcil2 : ciListEq (c :: rest.takeWhile isWordChar) (w :: ws) = false := by
                rw [← List.takeWhile_cons_of_pos hc]
                exact hcil
              rw [if_neg (by simp [hcil2]), if_neg (by simp)]
            rw [hsame, specAux_push (w :: ws) al g c rest hc hrest2]
            rw [ih rest g (some c) hrest1 hrest2]
            rw [show leftBoundary (some c) = false by simp [leftBoundary, hc]]
      · have hcF : isWordChar c = false := by simpa using hc
        have hciEq : ciEq c w = false := ciEq_false_of c w hcF hw
        have hm : wholeMatchAt w ws prev (c :: rest) = false := by
          unfold wholeMatchAt isPrefixCI
          simp [hciEq]
        rw [replaceLoop, if_neg (by simp [hm])]
        rw [specRewriteAux, if_neg (by simp [hcF])]
        rw [ih rest g (some c) hrest1 hrest2]
        rw [show leftBoundary (some c) = true by simp [leftBoundary, hcF]]

/-- The source rewrite equals the specification rewrite for a non-empty
word-character rule word and a dollar-free alias. -/
theorem replaceWholeWordCI_eq_specRewrite (text : List Char) (w : Char) (ws al : List Char)
    (hword : (w :: ws).all isWordChar = true)
    (hal : al.all (fun c => !(c = '$')) = true) :
    replaceWholeWordCI text (w :: ws) al = specRewrite text (w :: ws) al := by
  unfold replaceWholeWordCI specRewrite
  exact replaceLoop_eq_spec w ws al hword hal text.length text text.length none
    (le_refl _) (le_refl _)

/-- C6 counterexample: the replacement string is a JS replacement pattern,
not the literal alias — `$&` re-inserts the matched text, so the result
differs from the specification rewrite that inserts the alias literally — and
a rule word carrying a regex metacharacter can abort rewriting entirely
instead of performing a whole-word replacement. -/
theorem pronunciation_replacement_not_literal :
    applyRule "a".toList ⟨"a".toList, "x$&y".toList⟩ = Except.ok "xay".toList ∧
    specRewrite "a".toList "a".toList "x$&y".toList = "x$&y".toList ∧
    "xay".toList ≠ "x$&y".toList ∧
    applyRules "x ( y".toList [⟨"(".toList, "p".toList⟩] = Except.error () := by
  refine ⟨?_, ?_, ?_, ?_⟩ <;> decide

/-- C6 (amended): for a non-empty rule word made of word characters and a
dollar-free alias, the source rewrite replaces exactly the case-insensitive
whole-word matches — it equals the specification rewrite over maximal
word-character runs with the alias inserted literally; rules apply
sequentially in list order over the already-rewritten text, the scenario rule
{Gemini → Jeminai} rewrites "Ask Gemini about Gemini." to
"Ask Jeminai about Jeminai.", and the word "Geminis" is not altered. -/
theorem pronunciation_whole_word_replacement :
    (∀ (text : List Char) (w : Char) (ws al : List Char),
      (w :: ws).all isWordChar = true → al.all (fun c => !(c = '$')) = true →
      replaceWholeWordCI text (w :: ws) al = specRewrite text (w :: ws) al) ∧
    (applyRules "Ask Gemini about Gemini.".toList [⟨"Gemini".toList, "Jeminai".toList⟩] =
      Except.ok "Ask Jeminai about Jeminai.".toList) ∧
    (applyRules "Say Geminis now.".toList [⟨"Gemini".toList, "Jeminai".toList⟩] =
      Except.ok "Say Geminis now.".toList) ∧
    (applyRules "a".toList [⟨"a".toList, "b".toList⟩, ⟨"b".toList, "c".toList⟩] =
      Except.ok "c".toList) := by
  refine ⟨replaceWholeWordCI_eq_specRewrite, ?_, ?_, ?_⟩ <;> decide

/-- Witness: the scenario rewrite agrees with the specification rewrite at a
concrete input. -/
theorem pronunciation_whole_word_replacement_witness :
    replaceWholeWordCI "Ask Gemini about Gemini.".toList "Gemini".toList "Jeminai".toList =
      specRewrite "Ask Gemini about Gemini.".toList "Gemini".toList "Jeminai".toList := by
  exact pronunciation_whole_word_replacement.1 "Ask Gemini about Gemini.".toList
    'G' "emini".toList "Jeminai".toList (by decide) (by decide)

end AIVoiceStudio
